import Mathlib

/-!
Verification development for a Bitcoin output-descriptor and Miniscript
library.  The descriptor envelope layer (`Descriptor`) is translated from
`src/descriptor/mod.rs`; the legacy Script parser shell (`Descript.parse`)
from `src/descript/mod.rs`.  The Miniscript core, the textual expression
parser and the Script lexer are consumed by the envelope only through
interfaces; where their code is not part of the sources, they are modelled
from the specification and marked as such in the doc comments.

Bytes are modelled as natural numbers, scripts as lists of bytes.
-/

/-- Bitcoin Script push of a data slice, as produced by rust-bitcoin
`Builder::push_slice` (external collaborator): a direct length byte for
lengths below 76, otherwise an `OP_PUSHDATA1/2/4` prefix with a
little-endian length, followed by the raw bytes. -/
def push_slice (data : List Nat) : List Nat :=
  (if data.length < 76 then [data.length]
   else if data.length < 256 then [76, data.length]
   else if data.length < 65536 then [77, data.length % 256, data.length / 256]
   else [78, data.length % 256, data.length / 256 % 256,
         data.length / 65536 % 256, data.length / 16777216 % 256]) ++ data

/-- Little-endian numeric value of a byte list. -/
def le_bytes : List Nat → Nat
  | [] => 0
  | b :: rest => b + 256 * le_bytes rest

/-- Byte-emitting loop of rust-bitcoin `build_scriptint` (external
collaborator): emit little-endian magnitude bytes; the sign is carried in
the high bit of the last byte, with an extra byte when the top magnitude
byte already has its high bit set. -/
def build_loop (a : Nat) (neg : Bool) : List Nat :=
  if h : 255 < a then (a % 256) :: build_loop (a / 256) neg
  else if 128 ≤ a then [a, if neg then 128 else 0]
  else [if neg then a + 128 else a]
termination_by a
decreasing_by exact Nat.div_lt_self (by omega) (by omega)

/-- rust-bitcoin `build_scriptint` (external collaborator): the minimal
sign-magnitude little-endian Script encoding of an integer; zero encodes
as the empty byte string. -/
def build_scriptint (n : Int) : List Nat :=
  if n = 0 then [] else build_loop n.natAbs (decide (n < 0))

/-- Numeric value of a sign-magnitude little-endian byte string (the
decoding direction of Script integers). -/
def scriptint_decode (v : List Nat) : Int :=
  match v.getLast? with
  | none => 0
  | some last =>
    if 128 ≤ last then - Int.ofNat (le_bytes v - 2 ^ (8 * v.length - 1))
    else Int.ofNat (le_bytes v)

/-- Modelled from the spec: rust-bitcoin `script::read_scriptint`
(external collaborator), which per §4.6 succeeds exactly on byte strings
of at most four bytes that are the minimal Script encoding of their
value; the empty string decodes to zero. -/
def read_scriptint (v : List Nat) : Option Int :=
  if v.length = 0 then some 0
  else if 4 < v.length then none
  else if build_scriptint (scriptint_decode v) = v then some (scriptint_decode v)
  else none

/-- rust-bitcoin `Builder::push_int` (external collaborator): minus one
and one through sixteen become the single opcodes `OP_1NEGATE` and
`OP_1`..`OP_16`, zero becomes `OP_0`, anything else a push of its minimal
Script encoding. -/
def push_int (n : Int) : List Nat :=
  if n = -1 ∨ (1 ≤ n ∧ n ≤ 16) then [(80 + n).toNat]
  else if n = 0 then [0]
  else push_slice (build_scriptint n)

/-- One stack element rendered as a scriptSig push, per the inner closure
of `Descriptor::satisfy`: an integer push when the element parses as a
minimal Script integer, otherwise a raw data push. -/
def push_wit_elem (w : List Nat) : List Nat :=
  match read_scriptint w with
  | some n => push_int n
  | none => push_slice w

/-- The helper `witness_to_scriptsig` of `Descriptor::satisfy`
(src/descriptor/mod.rs): fold the witness stack into a scriptSig,
rendering each element with `push_wit_elem`. -/
def witness_to_scriptsig (witness : List (List Nat)) : List Nat :=
  witness.foldl (fun b w => b ++ push_wit_elem w) []

/-- Hash primitives (external collaborators, §6.3), abstracted together
with their output lengths. -/
structure Crypto where
  hash160 : List Nat → List Nat
  sha256 : List Nat → List Nat
  hash160_len : ∀ b, (hash160 b).length = 20
  sha256_len : ∀ b, (sha256 b).length = 32

/-- Key capability (§6.3): lowering an abstract key to its 33-byte
compressed public-key serialization. -/
structure KeyOps (K : Type) where
  to_public_key : K → List Nat
  to_public_key_len : ∀ k, (to_public_key k).length = 33

/-- An ECDSA signature as the satisfier returns it: DER bytes plus the
sighash-type byte appended by `Descriptor::satisfy`. -/
structure Sig where
  der : List Nat
  sighash : Nat

/-- The signature serialization built by `Descriptor::satisfy`:
`sig.0.serialize_der()` followed by the sighash byte. -/
def sig_vec (s : Sig) : List Nat := s.der ++ [s.sighash]

/-- Satisfier capability (§4.5) restricted to the lookup the envelope
itself consumes. -/
structure Satisfier (K : Type) where
  lookup_sig : K → Option Sig

/-- Interface of the Miniscript core as consumed by the descriptor
envelope (§1: the wrapper layer is specified only as the interface it
consumes from the core): `encode` emits the Script byte program,
`satisfy` produces a witness stack under a satisfier oracle or fails. -/
structure MsOps (M K : Type) where
  encode : M → List Nat
  satisfy : M → Satisfier K → Option (List (List Nat))

/-- Modelled from the spec: the library error type (`Error` in the crate
root, not under src/), restricted to the constructors of the §7 taxonomy
that the formalised operations produce. -/
inductive Error where
  | Unexpected (s : List Char)
  | EarlyEnd
  | ExpectedChar (c : Char)
  | Trailing (s : List Char)
  | Unprintable (b : Nat)
  | BadDescriptor
  | CouldNotSatisfy
  | MissingSig (pk : List Nat)
deriving DecidableEq

/-- Bitcoin network tag (external collaborator). -/
inductive Network where
  | bitcoin
  | testnet
  | regtest
deriving DecidableEq

/-- Address payload of rust-bitcoin (external collaborator): a
pay-to-pubkey-hash commitment, a pay-to-script-hash commitment, or a
segwit witness program. -/
inductive Payload where
  | PubkeyHash (h : List Nat)
  | ScriptHash (h : List Nat)
  | WitnessProgram (version : Nat) (program : List Nat)
deriving DecidableEq

/-- rust-bitcoin `Address` (external collaborator). -/
structure Address where
  network : Network
  payload : Payload
deriving DecidableEq

/-- rust-bitcoin `Address::p2pkh`. -/
def Address.p2pkh (C : Crypto) (pkbytes : List Nat) (net : Network) : Address :=
  ⟨net, .PubkeyHash (C.hash160 pkbytes)⟩

/-- rust-bitcoin `Address::p2wpkh`. -/
def Address.p2wpkh (C : Crypto) (pkbytes : List Nat) (net : Network) : Address :=
  ⟨net, .WitnessProgram 0 (C.hash160 pkbytes)⟩

/-- rust-bitcoin `Address::p2shwpkh`: script hash of the segwit v0
pubkey-hash output script. -/
def Address.p2shwpkh (C : Crypto) (pkbytes : List Nat) (net : Network) : Address :=
  ⟨net, .ScriptHash (C.hash160 (0 :: push_slice (C.hash160 pkbytes)))⟩

/-- rust-bitcoin `Address::p2sh`. -/
def Address.p2sh (C : Crypto) (script : List Nat) (net : Network) : Address :=
  ⟨net, .ScriptHash (C.hash160 script)⟩

/-- rust-bitcoin `Address::p2wsh`. -/
def Address.p2wsh (C : Crypto) (script : List Nat) (net : Network) : Address :=
  ⟨net, .WitnessProgram 0 (C.sha256 script)⟩

/-- rust-bitcoin `Address::p2shwsh`: script hash of the segwit v0
script-hash output script. -/
def Address.p2shwsh (C : Crypto) (script : List Nat) (net : Network) : Address :=
  ⟨net, .ScriptHash (C.hash160 (0 :: push_slice (C.sha256 script)))⟩

/-- rust-bitcoin `Address::script_pubkey` (external collaborator): the
output script committed to by an address. -/
def Address.script_pubkey (a : Address) : List Nat :=
  match a.payload with
  | .PubkeyHash h => 118 :: 169 :: push_slice h ++ [136, 172]
  | .ScriptHash h => 169 :: push_slice h ++ [135]
  | .WitnessProgram v prog => (if v = 0 then 0 else 80 + v) :: push_slice prog

/-- rust-bitcoin `Script::to_p2sh`: `OP_HASH160 <hash160 of the script>
OP_EQUAL`. -/
def to_p2sh (C : Crypto) (s : List Nat) : List Nat :=
  169 :: push_slice (C.hash160 s) ++ [135]

/-- rust-bitcoin `Script::to_v0_p2wsh`: `OP_0 <sha256 of the script>`. -/
def to_v0_p2wsh (C : Crypto) (s : List Nat) : List Nat :=
  0 :: push_slice (C.sha256 s)

/-- The script descriptor enum of src/descriptor/mod.rs, polymorphic over
the Miniscript carrier `M` and the key type `K`. -/
inductive Descriptor (M K : Type) where
  | Bare (ms : M)
  | Pk (pk : K)
  | Pkh (pk : K)
  | Wpkh (pk : K)
  | ShWpkh (pk : K)
  | Sh (ms : M)
  | Wsh (ms : M)
  | ShWsh (ms : M)
deriving DecidableEq

/-- The transaction-input structure the satisfier fills in (§6.3),
polymorphic over the previous-output reference type. -/
structure TxIn (P : Type) where
  previous_output : P
  script_sig : List Nat
  sequence : Nat
  witness : List (List Nat)
deriving DecidableEq

/-- `Descriptor::script_pubkey` (src/descriptor/mod.rs lines 141-165),
branch by branch: `Bare` encodes the Miniscript directly, `Pk` builds
`<pk> OP_CHECKSIG`, the key-hash and script-hash envelopes go through the
rust-bitcoin address and script helpers exactly as the source does. -/
def Descriptor.script_pubkey {M K : Type} (C : Crypto) (KO : KeyOps K)
    (MO : MsOps M K) : Descriptor M K → List Nat
  | .Bare ms => MO.encode ms
  | .Pk pk => push_slice (KO.to_public_key pk) ++ [172]
  | .Pkh pk => (Address.p2pkh C (KO.to_public_key pk) .bitcoin).script_pubkey
  | .Wpkh pk => (Address.p2wpkh C (KO.to_public_key pk) .bitcoin).script_pubkey
  | .ShWpkh pk => (Address.p2shwpkh C (KO.to_public_key pk) .bitcoin).script_pubkey
  | .Sh ms => to_p2sh C (MO.encode ms)
  | .Wsh ms => to_v0_p2wsh C (MO.encode ms)
  | .ShWsh ms => to_p2sh C (to_v0_p2wsh C (MO.encode ms))

/-- `Descriptor::unsigned_script_sig` (src/descriptor/mod.rs lines
175-199): empty for non-segwit and pure-segwit envelopes; for the
segwit-in-P2SH envelopes, a single push of the redeem script. -/
def Descriptor.unsigned_script_sig {M K : Type} (C : Crypto) (KO : KeyOps K)
    (MO : MsOps M K) : Descriptor M K → List Nat
  | .Bare _ => []
  | .Pk _ => []
  | .Pkh _ => []
  | .Sh _ => []
  | .Wsh _ => []
  | .Wpkh _ => []
  | .ShWpkh pk =>
    push_slice ((Address.p2wpkh C (KO.to_public_key pk) .bitcoin).script_pubkey)
  | .ShWsh ms => push_slice (to_v0_p2wsh C (MO.encode ms))

/-- `Descriptor::witness_script` (src/descriptor/mod.rs lines 205-217):
the scriptPubKey itself for `Bare`, `Pk`, `Pkh` and `Wpkh`; the segwit
redeem script for `ShWpkh`; the encoded Miniscript for `Sh`, `Wsh` and
`ShWsh`. -/
def Descriptor.witness_script {M K : Type} (C : Crypto) (KO : KeyOps K)
    (MO : MsOps M K) : Descriptor M K → List Nat
  | .Bare ms => Descriptor.script_pubkey C KO MO (.Bare ms)
  | .Pk pk => Descriptor.script_pubkey C KO MO (.Pk pk)
  | .Pkh pk => Descriptor.script_pubkey C KO MO (.Pkh pk)
  | .Wpkh pk => Descriptor.script_pubkey C KO MO (.Wpkh pk)
  | .ShWpkh pk => (Address.p2wpkh C (KO.to_public_key pk) .bitcoin).script_pubkey
  | .Sh ms => MO.encode ms
  | .Wsh ms => MO.encode ms
  | .ShWsh ms => MO.encode ms

/-- `Descriptor::address` (src/descriptor/mod.rs lines 117-138): no
address for `Bare` and `Pk`, the rust-bitcoin address constructor of the
matching layout for every other envelope. -/
def Descriptor.address {M K : Type} (C : Crypto) (KO : KeyOps K)
    (MO : MsOps M K) : Descriptor M K → Network → Option Address
  | .Bare _, _ => none
  | .Pk _, _ => none
  | .Pkh pk, net => some (Address.p2pkh C (KO.to_public_key pk) net)
  | .Wpkh pk, net => some (Address.p2wpkh C (KO.to_public_key pk) net)
  | .ShWpkh pk, net => some (Address.p2shwpkh C (KO.to_public_key pk) net)
  | .Sh ms, net => some (Address.p2sh C (MO.encode ms) net)
  | .Wsh ms, net => some (Address.p2wsh C (MO.encode ms) net)
  | .ShWsh ms, net => some (Address.p2shwsh C (MO.encode ms) net)

/-- `Descriptor::satisfy` (src/descriptor/mod.rs lines 222-339).  The
source mutates the `TxIn` in place and returns `Result<(), Error>`; here
the outcome and the final `TxIn` are returned as a pair, preserving the
source's mutation order (for `ShWsh` the scriptSig is assigned before the
inner satisfaction is attempted). -/
def Descriptor.satisfy {M K P : Type} (C : Crypto) (KO : KeyOps K)
    (MO : MsOps M K) (d : Descriptor M K) (txin : TxIn P) (s : Satisfier K) :
    Except Error Unit × TxIn P :=
  match d with
  | .Bare ms =>
    match MO.satisfy ms s with
    | some wit =>
      (.ok (), { txin with script_sig := witness_to_scriptsig wit, witness := [] })
    | none => (.error .CouldNotSatisfy, txin)
  | .Pk pk =>
    match s.lookup_sig pk with
    | some sig =>
      (.ok (), { txin with script_sig := push_slice (sig_vec sig), witness := [] })
    | none => (.error (.MissingSig (KO.to_public_key pk)), txin)
  | .Pkh pk =>
    match s.lookup_sig pk with
    | some sig =>
      (.ok (), { txin with
        script_sig := push_slice (sig_vec sig) ++ push_slice (KO.to_public_key pk),
        witness := [] })
    | none => (.error (.MissingSig (KO.to_public_key pk)), txin)
  | .Wpkh pk =>
    match s.lookup_sig pk with
    | some sig =>
      (.ok (), { txin with script_sig := [],
                           witness := [sig_vec sig, KO.to_public_key pk] })
    | none => (.error (.MissingSig (KO.to_public_key pk)), txin)
  | .ShWpkh pk =>
    match s.lookup_sig pk with
    | some sig =>
      (.ok (), { txin with
        script_sig :=
          push_slice ((Address.p2wpkh C (KO.to_public_key pk) .bitcoin).script_pubkey),
        witness := [sig_vec sig, KO.to_public_key pk] })
    | none => (.error (.MissingSig (KO.to_public_key pk)), txin)
  | .Sh ms =>
    match MO.satisfy ms s with
    | some wit =>
      (.ok (), { txin with
        script_sig := witness_to_scriptsig (wit ++ [MO.encode ms]),
        witness := [] })
    | none => (.error .CouldNotSatisfy, txin)
  | .Wsh ms =>
    match MO.satisfy ms s with
    | some wit =>
      (.ok (), { txin with script_sig := [],
                           witness := wit ++ [MO.encode ms] })
    | none => (.error .CouldNotSatisfy, txin)
  | .ShWsh ms =>
    let txin1 := { txin with
      script_sig := push_slice (to_v0_p2wsh C (MO.encode ms)) }
    match MO.satisfy ms s with
    | some wit =>
      (.ok (), { txin1 with witness := wit ++ [MO.encode ms] })
    | none => (.error .CouldNotSatisfy, txin1)

/-- The envelope table of §4.6 taken literally (spec side of the C1
refinement): the scriptPubKey of each envelope written out as raw opcode
and hash bytes. -/
def spec_script_pubkey {M K : Type} (C : Crypto) (KO : KeyOps K)
    (MO : MsOps M K) : Descriptor M K → List Nat
  | .Bare ms => MO.encode ms
  | .Pk pk => 33 :: KO.to_public_key pk ++ [172]
  | .Pkh pk => [118, 169, 20] ++ C.hash160 (KO.to_public_key pk) ++ [136, 172]
  | .Wpkh pk => [0, 20] ++ C.hash160 (KO.to_public_key pk)
  | .ShWpkh pk =>
    [169, 20] ++ C.hash160 ([0, 20] ++ C.hash160 (KO.to_public_key pk)) ++ [135]
  | .Sh ms => [169, 20] ++ C.hash160 (MO.encode ms) ++ [135]
  | .Wsh ms => [0, 32] ++ C.sha256 (MO.encode ms)
  | .ShWsh ms => [169, 20] ++ C.hash160 ([0, 32] ++ C.sha256 (MO.encode ms)) ++ [135]

/-- Modelled from the spec: the name/args expression tree of the textual
surface (`expression::Expression.Tree`, not under src/), §4.2. -/
inductive Expression.Tree where
  | node (name : List Char) (args : List Expression.Tree)

/-- The name at the root of an expression tree. -/
def treeName : Expression.Tree → List Char
  | .node n _ => n

/-- Modelled from the spec: the characters admitted in an identifier of
the textual surface, §4.2 (`[A-Za-z0-9_]+`) together with the colon of
the wrapper-cast prefix syntax of §6.1. -/
def identChar (c : Char) : Bool :=
  (65 ≤ c.toNat && c.toNat ≤ 90) || (97 ≤ c.toNat && c.toNat ≤ 122) ||
  (48 ≤ c.toNat && c.toNat ≤ 57) || c = '_' || c = ':'

mutual

/-- Printing an expression tree back to its textual surface form:
`name` for a leaf, `name(arg,arg,...)` otherwise. -/
def printTree : Expression.Tree → List Char
  | .node n [] => n
  | .node n (a :: as) => n ++ '(' :: (printArgs a as ++ [')'])
termination_by t => sizeOf t

/-- Comma-separated printing of a nonempty argument list. -/
def printArgs : Expression.Tree → List Expression.Tree → List Char
  | a, [] => printTree a
  | a, b :: bs => printTree a ++ ',' :: printArgs b bs
termination_by a as => sizeOf a + sizeOf as

end

mutual

/-- Well-formedness of an expression tree: every name is a nonempty
identifier. -/
def wfTree : Expression.Tree → Bool
  | .node n args => !n.isEmpty && n.all identChar && wfArgs args
termination_by t => sizeOf t

/-- Well-formedness of a list of expression trees. -/
def wfArgs : List Expression.Tree → Bool
  | [] => true
  | t :: ts => wfTree t && wfArgs ts
termination_by ts => sizeOf ts

end

/-- Longest identifier prefix of a character list, with the remainder. -/
def takeIdent : List Char → List Char × List Char
  | [] => ([], [])
  | c :: cs =>
    if identChar c then
      let p := takeIdent cs
      (c :: p.1, p.2)
    else ([], c :: cs)

mutual

/-- Modelled from the spec: fuel-indexed recursive-descent recognizer for
one atom of the §4.2 grammar `atom := ident | ident "(" args ")"`. -/
def parseAtom : Nat → List Char → Option (Expression.Tree × List Char)
  | 0, _ => none
  | Nat.succ fuel, s =>
    let p := takeIdent s
    if p.1 = [] then none
    else
      match p.2 with
      | [] => some (.node p.1 [], [])
      | c :: rest2 =>
        if c = '(' then
          match parseArgsF fuel rest2 with
          | some (args, c2 :: rest3) =>
            if c2 = ')' then some (.node p.1 args, rest3) else none
          | _ => none
        else some (.node p.1 [], c :: rest2)

/-- Modelled from the spec: fuel-indexed recognizer for the §4.2
production `args := atom ("," atom)*`. -/
def parseArgsF : Nat → List Char → Option (List Expression.Tree × List Char)
  | 0, _ => none
  | Nat.succ fuel, s =>
    match parseAtom fuel s with
    | some (t, c :: rest) =>
      if c = ',' then
        match parseArgsF fuel rest with
        | some (ts, rest2) => some (t :: ts, rest2)
        | none => none
      else some ([t], c :: rest)
    | some (t, []) => some ([t], [])
    | none => none

end

/-- Modelled from the spec: `expression::Expression.Tree::from_str` (not under
src/), parsing the §4.2 surface grammar; leftover input is a `Trailing`
error and an unparsable prefix an `ExpectedChar` error, following the §7
taxonomy. -/
def Expression.Tree.from_str (s : List Char) : Except Error Expression.Tree :=
  match parseAtom (s.length + 1) s with
  | some (t, []) => .ok t
  | some (_, c :: r) => .error (.Trailing (c :: r))
  | none => .error (.ExpectedChar '(')

/-- The printable-byte scan of `Descriptor::from_str`
(src/descriptor/mod.rs lines 446-450): the first byte below 20 or above
127, if any.  Characters stand in for the bytes of the source string. -/
def findUnprintable : List Char → Option Nat
  | [] => none
  | c :: cs => if c.toNat < 20 ∨ 127 < c.toNat then some c.toNat else findUnprintable cs

/-- Modelled from the spec: the textual capability of the key type
(§3.1, §6.3 - parse-from-string and print-to-string of `Pk`, whose
implementation is not under src/): keys print as nonempty identifier
strings and re-parse to themselves. -/
structure KeyText (K : Type) where
  print : K → List Char
  from_str : List Char → Option K
  print_ne : ∀ k, print k ≠ []
  print_ident : ∀ k, (print k).all identChar = true
  round : ∀ k, from_str (print k) = some k

/-- Modelled from the spec: the textual capability of the Miniscript
core (`Miniscript`'s `Display` and `FromTree`, not under src/): a
Miniscript prints as a well-formed expression tree whose root name is
none of the five envelope keywords (§6.1 lists the Miniscript fragment
names, all distinct from `pk`, `pkh`, `wpkh`, `sh`, `wsh`), and
`from_tree` inverts that tree. -/
structure MsText (M : Type) where
  toTree : M → Expression.Tree
  fromTree : Expression.Tree → Option M
  wf : ∀ m, wfTree (toTree m) = true
  notReserved : ∀ m, treeName (toTree m) ∉
    [['p', 'k'], ['p', 'k', 'h'], ['w', 'p', 'k', 'h'], ['s', 'h'], ['w', 's', 'h']]
  round : ∀ m, fromTree (toTree m) = some m

/-- `expression::terminal` (not under src/, modelled from the spec): a
leaf argument is converted through the key parser, whose failure is
wrapped as `Unexpected`; a non-leaf argument is itself `Unexpected`. -/
def terminalK {K : Type} (KT : KeyText K) {X : Type} (f : K → X) : Expression.Tree → Except Error X
  | .node nm [] =>
    match KT.from_str nm with
    | some k => .ok (f k)
    | none => .error (.Unexpected nm)
  | .node nm (_ :: _) => .error (.Unexpected nm)

/-- Lift the Miniscript tree parser into the error monad; its failure is
a `BadDescriptor` error. -/
def liftMs {M : Type} (o : Option M) : Except Error M :=
  match o with
  | some m => .ok m
  | none => .error .BadDescriptor

/-- `Descriptor::from_tree` (src/descriptor/mod.rs lines 401-434):
dispatch on the root name and arity; `sh` looks one level deeper to
recognize `sh(wsh(..))` and `sh(wpkh(..))`; anything unrecognized falls
through to a bare Miniscript. -/
def Descriptor.from_tree {M K : Type} (KT : KeyText K) (MT : MsText M) :
    Expression.Tree → Except Error (Descriptor M K)
  | .node nm [a] =>
    if nm = ['p', 'k'] then terminalK KT Descriptor.Pk a
    else if nm = ['p', 'k', 'h'] then terminalK KT Descriptor.Pkh a
    else if nm = ['w', 'p', 'k', 'h'] then terminalK KT Descriptor.Wpkh a
    else if nm = ['s', 'h'] then
      match a with
      | .node nm2 [b] =>
        if nm2 = ['w', 's', 'h'] then (liftMs (MT.fromTree b)).map Descriptor.ShWsh
        else if nm2 = ['w', 'p', 'k', 'h'] then terminalK KT Descriptor.ShWpkh b
        else (liftMs (MT.fromTree a)).map Descriptor.Sh
      | _ => (liftMs (MT.fromTree a)).map Descriptor.Sh
    else if nm = ['w', 's', 'h'] then (liftMs (MT.fromTree a)).map Descriptor.Wsh
    else (liftMs (MT.fromTree (.node nm [a]))).map Descriptor.Bare
  | .node nm args => (liftMs (MT.fromTree (.node nm args))).map Descriptor.Bare

/-- `Descriptor::from_str` (src/descriptor/mod.rs lines 445-455): scan
for a byte outside the accepted range, then parse the expression tree
and interpret it. -/
def Descriptor.from_str {M K : Type} (KT : KeyText K) (MT : MsText M)
    (s : List Char) : Except Error (Descriptor M K) :=
  match findUnprintable s with
  | some b => .error (.Unprintable b)
  | none =>
    match Expression.Tree.from_str s with
    | .ok t => Descriptor.from_tree KT MT t
    | .error e => .error e

/-- The `Display` implementation for `Descriptor` (src/descriptor/mod.rs
lines 472-485), with the Miniscript and key sub-displays supplied by the
textual capabilities: `ShWpkh` prints as `sh(wpkh(..))` and `ShWsh` as
`sh(wsh(..))`. -/
def Descriptor.print {M K : Type} (KT : KeyText K) (MT : MsText M) :
    Descriptor M K → List Char
  | .Bare m => printTree (MT.toTree m)
  | .Pk p => ['p', 'k', '('] ++ KT.print p ++ [')']
  | .Pkh p => ['p', 'k', 'h', '('] ++ KT.print p ++ [')']
  | .Wpkh p => ['w', 'p', 'k', 'h', '('] ++ KT.print p ++ [')']
  | .ShWpkh p => ['s', 'h', '(', 'w', 'p', 'k', 'h', '('] ++ KT.print p ++ [')', ')']
  | .Sh m => ['s', 'h', '('] ++ printTree (MT.toTree m) ++ [')']
  | .Wsh m => ['w', 's', 'h', '('] ++ printTree (MT.toTree m) ++ [')']
  | .ShWsh m => ['s', 'h', '(', 'w', 's', 'h', '('] ++ printTree (MT.toTree m) ++ [')', ')']

/-- The expression tree a printed descriptor denotes: the envelope name
applied to the key leaf or Miniscript tree. -/
def descTree {M K : Type} (KT : KeyText K) (MT : MsText M) :
    Descriptor M K → Expression.Tree
  | .Bare m => MT.toTree m
  | .Pk p => .node ['p', 'k'] [.node (KT.print p) []]
  | .Pkh p => .node ['p', 'k', 'h'] [.node (KT.print p) []]
  | .Wpkh p => .node ['w', 'p', 'k', 'h'] [.node (KT.print p) []]
  | .ShWpkh p =>
    .node ['s', 'h'] [.node ['w', 'p', 'k', 'h'] [.node (KT.print p) []]]
  | .Sh m => .node ['s', 'h'] [MT.toTree m]
  | .Wsh m => .node ['w', 's', 'h'] [MT.toTree m]
  | .ShWsh m => .node ['s', 'h'] [.node ['w', 's', 'h'] [MT.toTree m]]

/-- `Descript::parse` (src/descript/mod.rs lines 70-80) with the lexer
and the bottom-up recognizer (`lex`, `parse_subexpression` plus the cast
into `T`, in submodules not under src/) abstracted: lex the byte
program, recognize the top fragment, and reject any remaining token as
`Unexpected`. -/
def Descript.parse {Tok T : Type} (tts : Tok → List Char)
    (lex : List Nat → Except Error (List Tok))
    (pse : List Tok → Except Error (T × List Tok))
    (script : List Nat) : Except Error T :=
  match lex script with
  | .error e => .error e
  | .ok tokens =>
    match pse tokens with
    | .error e => .error e
    | .ok (top, rest) =>
      match rest with
      | [] => .ok top
      | leading :: _ => .error (.Unexpected (tts leading))

/-- Head of the remainder is not an identifier character (the condition
under which `takeIdent` stops exactly at a printed name). -/
def headNotIdent : List Char → Bool
  | [] => true
  | c :: _ => !identChar c

/-- Remainder on which an atom recognizer run on a printed tree stops
cleanly: no identifier character and no opening parenthesis at the head. -/
def stopHead : List Char → Bool
  | [] => true
  | c :: _ => !identChar c && c != '('

/-- Remainder on which an argument-list recognizer run on printed
arguments stops cleanly: additionally no comma at the head. -/
def stopHeadArgs : List Char → Bool
  | [] => true
  | c :: _ => !identChar c && c != '(' && c != ','

/-- Concrete hash primitives (constant digests of the right lengths),
for evaluating the definitions on closed inputs. -/
def exCrypto : Crypto where
  hash160 := fun _ => List.replicate 20 0
  sha256 := fun _ => List.replicate 32 0
  hash160_len := fun _ => by simp
  sha256_len := fun _ => by simp

/-- Concrete key capability over the unit key type. -/
def exKeyOps : KeyOps Unit where
  to_public_key := fun _ => List.replicate 33 2
  to_public_key_len := fun _ => by simp

/-- Concrete Miniscript interface whose satisfier always fails. -/
def exMsOpsNone : MsOps Unit Unit where
  encode := fun _ => [81, 178]
  satisfy := fun _ _ => none

/-- Concrete Miniscript interface whose satisfier returns a fixed
one-element stack. -/
def exMsOpsSome : MsOps Unit Unit where
  encode := fun _ => [81, 178]
  satisfy := fun _ _ => some [[48, 1]]

/-- A satisfier holding no signatures. -/
def exSatNone : Satisfier Unit := ⟨fun _ => none⟩

/-- A satisfier holding a fixed signature. -/
def exSatSome : Satisfier Unit := ⟨fun _ => some ⟨[48, 68], 1⟩⟩

/-- A concrete transaction input. -/
def exTxIn : TxIn Nat := ⟨7, [153], 100, [[66]]⟩

/-- Concrete key textual capability over the unit key type. -/
def exKeyText : KeyText Unit where
  print := fun _ => ['k']
  from_str := fun s => if s = ['k'] then some () else none
  print_ne := fun _ => by simp
  print_ident := fun _ => by
    show (['k'].all identChar) = true
    decide
  round := fun _ => by simp

/-- Concrete Miniscript textual capability over the unit carrier: it
prints as the leaf `old`. -/
def exMsText : MsText Unit where
  toTree := fun _ => .node ['o', 'l', 'd'] []
  fromTree := fun t =>
    match t with
    | .node ['o', 'l', 'd'] [] => some ()
    | _ => none
  wf := fun _ => by
    show wfTree (.node ['o', 'l', 'd'] []) = true
    simp only [wfTree, wfArgs]
    decide
  notReserved := fun _ => by
    show treeName (.node ['o', 'l', 'd'] []) ∉ _
    simp only [treeName]
    decide
  round := fun _ => rfl

/-- A concrete token-to-text function for exercising `Descript.parse`. -/
def exTts : Nat → List Char := fun _ => ['t']

/-- A concrete lexer for exercising `Descript.parse`: every byte is its
own token. -/
def exLex : List Nat → Except Error (List Nat) := fun s => .ok s

/-- A concrete recognizer for exercising `Descript.parse`: consume one
token, fail with `EarlyEnd` on the empty stream. -/
def exPse : List Nat → Except Error (Unit × List Nat) := fun toks =>
  match toks with
  | [] => .error .EarlyEnd
  | _ :: rest => .ok ((), rest)

/-- The first control byte the claimed printability range excludes but
the source scan accepts. -/
def exBadChar : Char := Char.ofNat 31

theorem push_slice_small (l : List Nat) (h : l.length < 76) :
    push_slice l = l.length :: l := by
  simp [push_slice, h]

theorem push_slice_hash160 (C : Crypto) (b : List Nat) :
    push_slice (C.hash160 b) = 20 :: C.hash160 b := by
  have h := C.hash160_len b
  rw [push_slice_small _ (by omega), h]

theorem push_slice_sha256 (C : Crypto) (b : List Nat) :
    push_slice (C.sha256 b) = 32 :: C.sha256 b := by
  have h := C.sha256_len b
  rw [push_slice_small _ (by omega), h]

theorem push_slice_pubkey {K : Type} (KO : KeyOps K) (k : K) :
    push_slice (KO.to_public_key k) = 33 :: KO.to_public_key k := by
  have h := KO.to_public_key_len k
  rw [push_slice_small _ (by omega), h]

/-- C1: with keys lowered to concrete public keys, `Descriptor::script_pubkey`
is exactly the pure function given by the envelope table of §4.6: `Bare`
encodes the Miniscript, `Pk` is a key push and `OP_CHECKSIG`, `Pkh` the
`OP_DUP OP_HASH160 <h160(pk)> OP_EQUALVERIFY OP_CHECKSIG` template, `Wpkh`
is `OP_0 <h160(pk)>`, `ShWpkh` the P2SH wrap of the `Wpkh` scriptPubKey,
`Sh` the P2SH wrap of the encoded script, `Wsh` is `OP_0 <sha256(encode)>`,
and `ShWsh` the P2SH wrap of the `Wsh` scriptPubKey. -/
theorem c1_script_pubkey_envelope_table {M K : Type} (C : Crypto) (KO : KeyOps K)
    (MO : MsOps M K) (d : Descriptor M K) :
    Descriptor.script_pubkey C KO MO d = spec_script_pubkey C KO MO d := by
  cases d <;>
    simp [Descriptor.script_pubkey, spec_script_pubkey, Address.p2pkh,
      Address.p2wpkh, Address.p2shwpkh, Address.script_pubkey, to_p2sh,
      to_v0_p2wsh, push_slice_hash160, push_slice_sha256, push_slice_pubkey]

/-- C2, counterexample: at a concrete key, `witness_script` of `Wpkh`
differs from `witness_script` of `Pkh` (it is the segwit scriptPubKey,
not the legacy pubkey-hash script). -/
theorem c2_counterexample :
    Descriptor.witness_script exCrypto exKeyOps exMsOpsNone (Descriptor.Wpkh ()) ≠
      Descriptor.witness_script exCrypto exKeyOps exMsOpsNone (Descriptor.Pkh ()) := by
  decide

/-- C2, amended: `Descriptor::witness_script` of `Wpkh(pk)` equals the
descriptor's own `script_pubkey`, the segwit program
`OP_0 <h160(pk)>` (src/descriptor/mod.rs lines 205-217 return
`self.script_pubkey()` for `Wpkh`, as the function's doc comment states),
not the `Pkh` script. -/
theorem c2_amended {M K : Type} (C : Crypto) (KO : KeyOps K) (MO : MsOps M K)
    (pk : K) :
    Descriptor.witness_script C KO MO (.Wpkh pk) =
      Descriptor.script_pubkey C KO MO (.Wpkh pk) ∧
    Descriptor.witness_script C KO MO (.Wpkh pk) =
      0 :: 20 :: C.hash160 (KO.to_public_key pk) := by
  refine ⟨rfl, ?_⟩
  simp [Descriptor.witness_script, Descriptor.script_pubkey, Address.p2wpkh,
    Address.script_pubkey, push_slice_hash160]

/-- C6: `Descriptor::unsigned_script_sig` is empty for `Bare`, `Pk`,
`Pkh`, `Sh`, `Wpkh` and `Wsh`; for `ShWpkh` it is the single 23-byte push
of the `Wpkh` scriptPubKey, and for `ShWsh` the single push of the `Wsh`
scriptPubKey `OP_0 <sha256(encode)>`. -/
theorem c6_unsigned_script_sig {M K : Type} (C : Crypto) (KO : KeyOps K)
    (MO : MsOps M K) :
    (∀ ms : M, Descriptor.unsigned_script_sig C KO MO (.Bare ms) = []) ∧
    (∀ pk : K, Descriptor.unsigned_script_sig C KO MO (.Pk pk) = []) ∧
    (∀ pk : K, Descriptor.unsigned_script_sig C KO MO (.Pkh pk) = []) ∧
    (∀ ms : M, Descriptor.unsigned_script_sig C KO MO (.Sh ms) = []) ∧
    (∀ pk : K, Descriptor.unsigned_script_sig C KO MO (.Wpkh pk) = []) ∧
    (∀ ms : M, Descriptor.unsigned_script_sig C KO MO (.Wsh ms) = []) ∧
    (∀ pk : K, Descriptor.unsigned_script_sig C KO MO (.ShWpkh pk) =
        22 :: Descriptor.script_pubkey C KO MO (.Wpkh pk) ∧
      (Descriptor.unsigned_script_sig C KO MO (.ShWpkh pk)).length = 23) ∧
    (∀ ms : M, Descriptor.unsigned_script_sig C KO MO (.ShWsh ms) =
        34 :: Descriptor.script_pubkey C KO MO (.Wsh ms) ∧
      Descriptor.script_pubkey C KO MO (.Wsh ms) =
        0 :: 32 :: C.sha256 (MO.encode ms)) := by
  have hwpkh : ∀ pk : K, Descriptor.script_pubkey C KO MO (.Wpkh pk) =
      0 :: 20 :: C.hash160 (KO.to_public_key pk) := by
    intro pk
    simp [Descriptor.script_pubkey, Address.p2wpkh, Address.script_pubkey,
      push_slice_hash160]
  have hwsh : ∀ ms : M, Descriptor.script_pubkey C KO MO (.Wsh ms) =
      0 :: 32 :: C.sha256 (MO.encode ms) := by
    intro ms
    simp [Descriptor.script_pubkey, to_v0_p2wsh, push_slice_sha256]
  refine ⟨fun _ => rfl, fun _ => rfl, fun _ => rfl, fun _ => rfl, fun _ => rfl,
    fun _ => rfl, fun pk => ?_, fun ms => ?_⟩
  · have hlen : ((Address.p2wpkh C (KO.to_public_key pk) .bitcoin).script_pubkey).length = 22 := by
      simp [Address.p2wpkh, Address.script_pubkey, push_slice_hash160,
        C.hash160_len]
    have hsp : (Address.p2wpkh C (KO.to_public_key pk) .bitcoin).script_pubkey =
        Descriptor.script_pubkey C KO MO (.Wpkh pk) := rfl
    constructor
    · rw [Descriptor.unsigned_script_sig, push_slice_small _ (by omega), hlen, hsp]
    · rw [Descriptor.unsigned_script_sig, push_slice_small _ (by omega), hsp]
      simp [hwpkh, C.hash160_len]
  · have hlen : (to_v0_p2wsh C (MO.encode ms)).length = 34 := by
      simp [to_v0_p2wsh, push_slice_sha256, C.sha256_len]
    have hsp : to_v0_p2wsh C (MO.encode ms) =
        Descriptor.script_pubkey C KO MO (.Wsh ms) := rfl
    refine ⟨?_, hwsh ms⟩
    rw [Descriptor.unsigned_script_sig, push_slice_small _ (by omega), hlen, hsp]

/-- C9: `Descriptor::address` returns `none` exactly for `Bare` and `Pk`;
every other envelope gets the rust-bitcoin address of the matching
layout: `p2pkh`, `p2wpkh`, `p2shwpkh`, `p2sh`, `p2wsh`, `p2shwsh`. -/
theorem c9_address_layouts {M K : Type} (C : Crypto) (KO : KeyOps K)
    (MO : MsOps M K) (net : Network) :
    (∀ ms : M, Descriptor.address C KO MO (.Bare ms) net = none) ∧
    (∀ pk : K, Descriptor.address C KO MO (.Pk pk) net = none) ∧
    (∀ pk : K, Descriptor.address C KO MO (.Pkh pk) net =
      some ⟨net, .PubkeyHash (C.hash160 (KO.to_public_key pk))⟩) ∧
    (∀ pk : K, Descriptor.address C KO MO (.Wpkh pk) net =
      some ⟨net, .WitnessProgram 0 (C.hash160 (KO.to_public_key pk))⟩) ∧
    (∀ pk : K, Descriptor.address C KO MO (.ShWpkh pk) net =
      some ⟨net, .ScriptHash (C.hash160
        (Descriptor.script_pubkey C KO MO (.Wpkh pk)))⟩) ∧
    (∀ ms : M, Descriptor.address C KO MO (.Sh ms) net =
      some ⟨net, .ScriptHash (C.hash160 (MO.encode ms))⟩) ∧
    (∀ ms : M, Descriptor.address C KO MO (.Wsh ms) net =
      some ⟨net, .WitnessProgram 0 (C.sha256 (MO.encode ms))⟩) ∧
    (∀ ms : M, Descriptor.address C KO MO (.ShWsh ms) net =
      some ⟨net, .ScriptHash (C.hash160
        (Descriptor.script_pubkey C KO MO (.Wsh ms)))⟩) := by
  refine ⟨fun _ => rfl, fun _ => rfl, fun _ => rfl, fun _ => rfl,
    fun pk => ?_, fun _ => rfl, fun _ => rfl, fun ms => ?_⟩
  · simp [Descriptor.address, Address.p2shwpkh, Descriptor.script_pubkey,
      Address.p2wpkh, Address.script_pubkey]
  · simp [Descriptor.address, Address.p2shwsh, Descriptor.script_pubkey,
      to_v0_p2wsh]

/-- C10: `Descriptor::satisfy` writes only the `script_sig` and `witness`
fields of the transaction input; `previous_output` and `sequence` are
unchanged whether it succeeds or fails. -/
theorem c10_satisfy_frame {M K P : Type} (C : Crypto) (KO : KeyOps K)
    (MO : MsOps M K) (d : Descriptor M K) (txin : TxIn P) (s : Satisfier K) :
    (Descriptor.satisfy C KO MO d txin s).2.previous_output = txin.previous_output ∧
    (Descriptor.satisfy C KO MO d txin s).2.sequence = txin.sequence := by
  cases d with
  | Bare ms => cases h : MO.satisfy ms s <;> simp [Descriptor.satisfy, h]
  | Pk pk => cases h : s.lookup_sig pk <;> simp [Descriptor.satisfy, h]
  | Pkh pk => cases h : s.lookup_sig pk <;> simp [Descriptor.satisfy, h]
  | Wpkh pk => cases h : s.lookup_sig pk <;> simp [Descriptor.satisfy, h]
  | ShWpkh pk => cases h : s.lookup_sig pk <;> simp [Descriptor.satisfy, h]
  | Sh ms => cases h : MO.satisfy ms s <;> simp [Descriptor.satisfy, h]
  | Wsh ms => cases h : MO.satisfy ms s <;> simp [Descriptor.satisfy, h]
  | ShWsh ms => cases h : MO.satisfy ms s <;> simp [Descriptor.satisfy, h]

theorem witness_to_scriptsig_acc (acc : List Nat) (l : List (List Nat)) :
    l.foldl (fun b w => b ++ push_wit_elem w) acc = acc ++ witness_to_scriptsig l := by
  induction l generalizing acc with
  | nil => simp [witness_to_scriptsig]
  | cons e rest ih =>
    simp only [witness_to_scriptsig, List.foldl_cons, List.nil_append]
    rw [ih, ih (push_wit_elem e), List.append_assoc]

/-- C4: when the satisfier holds no signature for the key, the four
single-key envelopes (`Pk`, `Pkh`, `Wpkh`, `ShWpkh`) fail with
`MissingSig(pk)`; when the inner Miniscript of a script envelope
(`Bare`, `Sh`, `Wsh`, `ShWsh`) cannot be satisfied, the failure is
`CouldNotSatisfy`, and the script envelopes never produce `MissingSig`. -/
theorem c4_satisfy_errors {M K P : Type} (C : Crypto) (KO : KeyOps K)
    (MO : MsOps M K) (s : Satisfier K) (txin : TxIn P) :
    (∀ pk, s.lookup_sig pk = none →
      (Descriptor.satisfy C KO MO (.Pk pk) txin s).1 =
        .error (.MissingSig (KO.to_public_key pk)) ∧
      (Descriptor.satisfy C KO MO (.Pkh pk) txin s).1 =
        .error (.MissingSig (KO.to_public_key pk)) ∧
      (Descriptor.satisfy C KO MO (.Wpkh pk) txin s).1 =
        .error (.MissingSig (KO.to_public_key pk)) ∧
      (Descriptor.satisfy C KO MO (.ShWpkh pk) txin s).1 =
        .error (.MissingSig (KO.to_public_key pk))) ∧
    (∀ ms, MO.satisfy ms s = none →
      (Descriptor.satisfy C KO MO (.Bare ms) txin s).1 = .error .CouldNotSatisfy ∧
      (Descriptor.satisfy C KO MO (.Sh ms) txin s).1 = .error .CouldNotSatisfy ∧
      (Descriptor.satisfy C KO MO (.Wsh ms) txin s).1 = .error .CouldNotSatisfy ∧
      (Descriptor.satisfy C KO MO (.ShWsh ms) txin s).1 = .error .CouldNotSatisfy) ∧
    (∀ ms pkb,
      (Descriptor.satisfy C KO MO (.Bare ms) txin s).1 ≠ .error (.MissingSig pkb) ∧
      (Descriptor.satisfy C KO MO (.Sh ms) txin s).1 ≠ .error (.MissingSig pkb) ∧
      (Descriptor.satisfy C KO MO (.Wsh ms) txin s).1 ≠ .error (.MissingSig pkb) ∧
      (Descriptor.satisfy C KO MO (.ShWsh ms) txin s).1 ≠ .error (.MissingSig pkb)) := by
  refine ⟨fun pk h => ?_, fun ms h => ?_, fun ms pkb => ?_⟩
  · simp [Descriptor.satisfy, h]
  · simp [Descriptor.satisfy, h]
  · cases h : MO.satisfy ms s <;> simp [Descriptor.satisfy, h]

/-- C4, witness: at concrete inputs, a signatureless satisfier makes `Pk`
fail with `MissingSig` and an unsatisfiable Miniscript makes `Bare` fail
with `CouldNotSatisfy`. -/
theorem c4_witness :
    (Descriptor.satisfy (P := Nat) exCrypto exKeyOps exMsOpsNone
      (.Pk ()) exTxIn exSatNone).1 =
      .error (.MissingSig (exKeyOps.to_public_key ())) ∧
    (Descriptor.satisfy (P := Nat) exCrypto exKeyOps exMsOpsNone
      (.Bare ()) exTxIn exSatNone).1 = .error .CouldNotSatisfy := by
  have h := c4_satisfy_errors (P := Nat) exCrypto exKeyOps exMsOpsNone exSatNone exTxIn
  exact ⟨(h.1 () rfl).1, (h.2.1 () rfl).1⟩

/-- C5: on success, `Descriptor::satisfy` places the witness data per
envelope: `Bare` and `Sh` render the stack as scriptSig pushes (an
integer push for an element that parses as a minimal Script integer,
otherwise a raw data push), `Sh` appending the push of the encoded
script, with an empty witness; `Wpkh` and `Wsh` fill only the witness
and empty the scriptSig; `ShWpkh` and `ShWsh` put the redeem-script push
in the scriptSig and the remaining elements in the witness. -/
theorem c5_satisfy_placement {M K P : Type} (C : Crypto) (KO : KeyOps K)
    (MO : MsOps M K) (s : Satisfier K) (txin : TxIn P) :
    (witness_to_scriptsig [] = []) ∧
    (∀ e rest, witness_to_scriptsig (e :: rest) =
      push_wit_elem e ++ witness_to_scriptsig rest) ∧
    (∀ e n, read_scriptint e = some n → push_wit_elem e = push_int n) ∧
    (∀ e, read_scriptint e = none → push_wit_elem e = push_slice e) ∧
    (∀ ms wit, MO.satisfy ms s = some wit →
      Descriptor.satisfy C KO MO (.Bare ms) txin s =
        (.ok (), { txin with script_sig := witness_to_scriptsig wit,
                             witness := [] }) ∧
      Descriptor.satisfy C KO MO (.Sh ms) txin s =
        (.ok (), { txin with
          script_sig := witness_to_scriptsig (wit ++ [MO.encode ms]),
          witness := [] }) ∧
      Descriptor.satisfy C KO MO (.Wsh ms) txin s =
        (.ok (), { txin with script_sig := [],
                             witness := wit ++ [MO.encode ms] }) ∧
      Descriptor.satisfy C KO MO (.ShWsh ms) txin s =
        (.ok (), { txin with
          script_sig := push_slice (Descriptor.script_pubkey C KO MO (.Wsh ms)),
          witness := wit ++ [MO.encode ms] })) ∧
    (∀ pk sig, s.lookup_sig pk = some sig →
      Descriptor.satisfy C KO MO (.Wpkh pk) txin s =
        (.ok (), { txin with script_sig := [],
                             witness := [sig_vec sig, KO.to_public_key pk] }) ∧
      Descriptor.satisfy C KO MO (.ShWpkh pk) txin s =
        (.ok (), { txin with
          script_sig := push_slice (Descriptor.script_pubkey C KO MO (.Wpkh pk)),
          witness := [sig_vec sig, KO.to_public_key pk] })) := by
  refine ⟨rfl, fun e rest => ?_, fun e n h => ?_, fun e h => ?_,
      fun ms wit h => ?_, fun pk sig h => ?_⟩
  · simp only [witness_to_scriptsig, List.foldl_cons, List.nil_append]
    exact witness_to_scriptsig_acc (push_wit_elem e) rest
  · simp [push_wit_elem, h]
  · simp [push_wit_elem, h]
  · refine ⟨?_, ?_, ?_, ?_⟩ <;> simp [Descriptor.satisfy, h, Descriptor.script_pubkey]
  · refine ⟨?_, ?_⟩ <;> simp [Descriptor.satisfy, h, Descriptor.script_pubkey]

/-- C5, witness: at concrete inputs, a satisfiable `Wsh` descriptor puts
the stack and the encoded script in the witness with an empty scriptSig,
and a `Wpkh` descriptor with an available signature fills the witness
with the signature and the key. -/
theorem c5_witness :
    Descriptor.satisfy (P := Nat) exCrypto exKeyOps exMsOpsSome
      (.Wsh ()) exTxIn exSatSome =
      (.ok (), { exTxIn with script_sig := [],
                             witness := [[48, 1]] ++ [exMsOpsSome.encode ()] }) ∧
    Descriptor.satisfy (P := Nat) exCrypto exKeyOps exMsOpsSome
      (.Wpkh ()) exTxIn exSatSome =
      (.ok (), { exTxIn with script_sig := [],
                             witness := [sig_vec ⟨[48, 68], 1⟩,
                                         exKeyOps.to_public_key ()] }) := by
  have h := c5_satisfy_placement (P := Nat) exCrypto exKeyOps exMsOpsSome exSatSome exTxIn
  exact ⟨(h.2.2.2.2.1 () [[48, 1]] rfl).2.2.1, (h.2.2.2.2.2 () ⟨[48, 68], 1⟩ rfl).1⟩

/-- C8: `Descript::parse` succeeds only with the token cursor at
end-of-stream; if tokens remain after the recognized rightmost top-level
fragment, it returns `Unexpected` on the first remaining token; and with
the lexer and recognizer behaving as §4.1/§4.3 prescribe on the empty
program (no tokens, recognizer fails with `EarlyEnd`), the empty program
is rejected. -/
theorem c8_parse_end_of_stream {Tok T : Type} (tts : Tok → List Char)
    (lex : List Nat → Except Error (List Tok))
    (pse : List Tok → Except Error (T × List Tok)) :
    (∀ script top, Descript.parse tts lex pse script = .ok top →
      ∃ toks, lex script = .ok toks ∧ pse toks = .ok (top, [])) ∧
    (∀ script toks top leading rest, lex script = .ok toks →
      pse toks = .ok (top, leading :: rest) →
      Descript.parse tts lex pse script = .error (.Unexpected (tts leading))) ∧
    (lex [] = .ok [] → pse [] = .error .EarlyEnd →
      Descript.parse tts lex pse [] = .error .EarlyEnd) := by
  refine ⟨fun script top h => ?_, fun script toks top leading rest h1 h2 => ?_,
      fun h1 h2 => ?_⟩
  · cases hl : lex script with
    | error e => simp [Descript.parse, hl] at h
    | ok toks =>
      cases hp : pse toks with
      | error e => simp [Descript.parse, hl, hp] at h
      | ok pr =>
        obtain ⟨tp, rest⟩ := pr
        cases rest with
        | nil =>
          have heq : tp = top := by simpa [Descript.parse, hl, hp] using h
          exact ⟨toks, rfl, by rw [hp, heq]⟩
        | cons a as => simp [Descript.parse, hl, hp] at h
  · simp [Descript.parse, h1, h2]
  · simp [Descript.parse, h1, h2]

/-- C8, witness: with a concrete lexer and recognizer, a leftover token
yields `Unexpected` and the empty program yields `EarlyEnd`. -/
theorem c8_witness :
    Descript.parse exTts exLex exPse [5, 6] = .error (.Unexpected (exTts 6)) ∧
    Descript.parse exTts exLex exPse [] = .error .EarlyEnd := by
  have h := c8_parse_end_of_stream exTts exLex exPse
  exact ⟨h.2.1 [5, 6] [5, 6] () 6 [] rfl rfl, h.2.2 rfl rfl⟩

theorem identChar_lparen : identChar '(' = false := by decide

theorem identChar_rparen : identChar ')' = false := by decide

theorem identChar_comma : identChar ',' = false := by decide

theorem identChar_printable (c : Char) (h : identChar c = true) :
    20 ≤ c.toNat ∧ c.toNat ≤ 127 := by
  simp only [identChar, Bool.or_eq_true, Bool.and_eq_true, decide_eq_true_eq] at h
  rcases h with (((h | h) | h) | h) | h
  · omega
  · omega
  · omega
  · subst h; decide
  · subst h; decide

theorem headNotIdent_of_stopHead (r : List Char) (h : stopHead r = true) :
    headNotIdent r = true := by
  cases r with
  | nil => rfl
  | cons c cs =>
    simp only [stopHead, Bool.and_eq_true] at h
    simpa [headNotIdent] using h.1

theorem stopHead_of_stopHeadArgs (r : List Char) (h : stopHeadArgs r = true) :
    stopHead r = true := by
  cases r with
  | nil => rfl
  | cons c cs =>
    simp only [stopHeadArgs, Bool.and_eq_true] at h
    simp only [stopHead, Bool.and_eq_true]
    exact ⟨h.1.1, h.1.2⟩

theorem takeIdent_append (n rest : List Char) (h1 : n.all identChar = true)
    (h2 : headNotIdent rest = true) : takeIdent (n ++ rest) = (n, rest) := by
  induction n with
  | nil =>
    cases rest with
    | nil => rfl
    | cons c cs =>
      simp only [headNotIdent, Bool.not_eq_true'] at h2
      simp [takeIdent, h2]
  | cons c cs ih =>
    simp only [List.all_cons, Bool.and_eq_true] at h1
    simp [takeIdent, h1.1, ih h1.2]

theorem printTree_node_nil (n : List Char) :
    printTree (.node n []) = n := by
  simp [printTree]

theorem printTree_node_cons (n : List Char) (a : Expression.Tree)
    (as : List Expression.Tree) :
    printTree (.node n (a :: as)) = n ++ '(' :: (printArgs a as ++ [')']) := by
  simp [printTree]

theorem printArgs_nil (a : Expression.Tree) :
    printArgs a [] = printTree a := by
  simp [printArgs]

theorem printArgs_cons (a b : Expression.Tree) (bs : List Expression.Tree) :
    printArgs a (b :: bs) = printTree a ++ ',' :: printArgs b bs := by
  simp [printArgs]

theorem printTree_length_pos (t : Expression.Tree) (h : wfTree t = true) :
    0 < (printTree t).length := by
  obtain ⟨n, args⟩ := t
  simp only [wfTree, Bool.and_eq_true] at h
  have hne : n ≠ [] := by
    intro he
    subst he
    simp at h
  cases args with
  | nil =>
    rw [printTree_node_nil]
    exact List.length_pos.mpr hne
  | cons a as =>
    rw [printTree_node_cons]
    simp

theorem parse_print (fuel : Nat) :
    (∀ t rest, wfTree t = true → (printTree t).length < fuel →
      stopHead rest = true →
      parseAtom fuel (printTree t ++ rest) = some (t, rest)) ∧
    (∀ a as rest, wfTree a = true → wfArgs as = true →
      (printArgs a as).length + 1 < fuel → stopHeadArgs rest = true →
      parseArgsF fuel (printArgs a as ++ rest) = some (a :: as, rest)) := by
  induction fuel with
  | zero =>
    constructor
    · intro t rest _ hlen _
      omega
    · intro a as rest _ _ hlen _
      omega
  | succ f ih =>
    constructor
    · intro t rest hwf hlen hstop
      obtain ⟨n, args⟩ := t
      simp only [wfTree, Bool.and_eq_true] at hwf
      obtain ⟨⟨hne, hid⟩, hargs⟩ := hwf
      have hne2 : n ≠ [] := by
        intro he
        subst he
        simp at hne
      cases args with
      | nil =>
        rw [printTree_node_nil] at hlen ⊢
        have hti : takeIdent n = (n, ([] : List Char)) := by
          simpa using takeIdent_append n [] hid rfl
        cases rest with
        | nil =>
          simp [parseAtom, hti, hne2]
        | cons c cs =>
          have hti2 := takeIdent_append n (c :: cs) hid
            (headNotIdent_of_stopHead _ hstop)
          have hcp : ¬(c = '(') := by
            simp only [stopHead, Bool.and_eq_true] at hstop
            simpa using hstop.2
          simp [parseAtom, hti2, hne2, hcp]
      | cons a as =>
        obtain ⟨ha, has⟩ : wfTree a = true ∧ wfArgs as = true := by
          simpa [wfArgs, Bool.and_eq_true] using hargs
        rw [printTree_node_cons] at hlen ⊢
        have hrw : (n ++ '(' :: (printArgs a as ++ [')'])) ++ rest
            = n ++ '(' :: (printArgs a as ++ ')' :: rest) := by
          simp
        rw [hrw]
        have hti := takeIdent_append n ('(' :: (printArgs a as ++ ')' :: rest)) hid
          (by simp [headNotIdent, identChar_lparen])
        have hnlen : 1 ≤ n.length := by
          cases n with
          | nil => exact absurd rfl hne2
          | cons x xs => simp
        have hlen2 : (printArgs a as).length + 1 < f := by
          simp only [List.length_append, List.length_cons] at hlen
          omega
        have hrec := ih.2 a as (')' :: rest) ha has hlen2
          (by simp [stopHeadArgs, identChar_rparen])
        simp [parseAtom, hti, hne2, hrec]
    · intro a as rest ha has hlen hstop
      cases as with
      | nil =>
        rw [printArgs_nil] at hlen ⊢
        cases rest with
        | nil =>
          have hrec : parseAtom f (printTree a) = some (a, []) := by
            simpa using ih.1 a [] ha (by omega) rfl
          simp [parseArgsF, hrec]
        | cons c cs =>
          have hrec := ih.1 a (c :: cs) ha (by omega)
            (stopHead_of_stopHeadArgs _ hstop)
          have hcc : ¬(c = ',') := by
            simp only [stopHeadArgs, Bool.and_eq_true] at hstop
            simpa using hstop.2
          simp [parseArgsF, hrec, hcc]
      | cons b bs =>
        obtain ⟨hb, hbs⟩ : wfTree b = true ∧ wfArgs bs = true := by
          simpa [wfArgs, Bool.and_eq_true] using has
        rw [printArgs_cons] at hlen ⊢
        have hrw : (printTree a ++ ',' :: printArgs b bs) ++ rest
            = printTree a ++ ',' :: (printArgs b bs ++ rest) := by
          simp
        rw [hrw]
        have hpa := printTree_length_pos a ha
        have hlena : (printTree a).length < f := by
          simp only [List.length_append, List.length_cons] at hlen
          omega
        have hreca := ih.1 a (',' :: (printArgs b bs ++ rest)) ha hlena
          (by simp [stopHead, identChar_comma])
        have hlenb : (printArgs b bs).length + 1 < f := by
          simp only [List.length_append, List.length_cons] at hlen
          omega
        have hrecb := ih.2 b bs rest hb hbs hlenb hstop
        simp [parseArgsF, hreca, hrecb]

theorem tree_from_str_print (t : Expression.Tree) (h : wfTree t = true) :
    Expression.Tree.from_str (printTree t) = .ok t := by
  have hp : parseAtom ((printTree t).length + 1) (printTree t) = some (t, []) := by
    simpa using (parse_print ((printTree t).length + 1)).1 t [] h (by omega) rfl
  simp [Expression.Tree.from_str, hp]

mutual

theorem printTree_chars : ∀ (t : Expression.Tree), wfTree t = true →
    ∀ c ∈ printTree t, identChar c = true ∨ c = '(' ∨ c = ')' ∨ c = ','
  | .node n [], h => by
    rw [printTree_node_nil]
    intro c hc
    left
    have hall : n.all identChar = true := by
      simp only [wfTree, Bool.and_eq_true] at h
      exact h.1.2
    exact List.all_eq_true.mp hall c hc
  | .node n (a :: as), h => by
    have hwf := h
    simp only [wfTree, Bool.and_eq_true] at hwf
    obtain ⟨ha, has⟩ : wfTree a = true ∧ wfArgs as = true := by
      simpa [wfArgs, Bool.and_eq_true] using hwf.2
    rw [printTree_node_cons]
    intro c hc
    rcases List.mem_append.mp hc with hc | hc
    · left
      exact List.all_eq_true.mp hwf.1.2 c hc
    · rcases List.mem_cons.mp hc with rfl | hc
      · right; left; rfl
      · rcases List.mem_append.mp hc with hc | hc
        · exact printArgs_chars a as ha has c hc
        · right; right; left
          simpa using hc
termination_by t => sizeOf t

theorem printArgs_chars : ∀ (a : Expression.Tree) (as : List Expression.Tree),
    wfTree a = true → wfArgs as = true →
    ∀ c ∈ printArgs a as, identChar c = true ∨ c = '(' ∨ c = ')' ∨ c = ','
  | a, [], ha, _ => by
    rw [printArgs_nil]
    exact printTree_chars a ha
  | a, b :: bs, ha, hbs => by
    obtain ⟨hb, hbs2⟩ : wfTree b = true ∧ wfArgs bs = true := by
      simpa [wfArgs, Bool.and_eq_true] using hbs
    rw [printArgs_cons]
    intro c hc
    rcases List.mem_append.mp hc with hc | hc
    · exact printTree_chars a ha c hc
    · rcases List.mem_cons.mp hc with rfl | hc
      · right; right; right; rfl
      · exact printArgs_chars b bs hb hbs2 c hc
termination_by a as => sizeOf a + sizeOf as

end

theorem printTree_printable (t : Expression.Tree) (h : wfTree t = true) :
    ∀ c ∈ printTree t, 20 ≤ c.toNat ∧ c.toNat ≤ 127 := by
  intro c hc
  rcases printTree_chars t h c hc with h1 | h1 | h1 | h1
  · exact identChar_printable c h1
  · subst h1; decide
  · subst h1; decide
  · subst h1; decide

theorem findUnprintable_none (s : List Char)
    (h : ∀ c ∈ s, 20 ≤ c.toNat ∧ c.toNat ≤ 127) : findUnprintable s = none := by
  induction s with
  | nil => rfl
  | cons c cs ih =>
    have hc := h c (by simp)
    simp only [findUnprintable]
    rw [if_neg (by omega)]
    exact ih fun x hx => h x (by simp [hx])

theorem findUnprintable_first (s : List Char)
    (h : ∃ c ∈ s, c.toNat < 20 ∨ 127 < c.toNat) :
    ∃ c ∈ s, (c.toNat < 20 ∨ 127 < c.toNat) ∧ findUnprintable s = some c.toNat := by
  induction s with
  | nil => simp at h
  | cons c cs ih =>
    by_cases hc : c.toNat < 20 ∨ 127 < c.toNat
    · exact ⟨c, by simp, hc, by simp [findUnprintable, hc]⟩
    · obtain ⟨x, hx, hxb⟩ := h
      rcases List.mem_cons.mp hx with rfl | hx2
      · exact absurd hxb hc
      · obtain ⟨y, hy, hyb, hyf⟩ := ih ⟨x, hx2, hxb⟩
        exact ⟨y, by simp [hy], hyb, by simp [findUnprintable, hc, hyf]⟩

theorem wfTree_of_parts (n : List Char) (args : List Expression.Tree)
    (h1 : n ≠ []) (h2 : n.all identChar = true) (h3 : wfArgs args = true) :
    wfTree (.node n args) = true := by
  simp only [wfTree, Bool.and_eq_true]
  refine ⟨⟨?_, h2⟩, h3⟩
  cases n with
  | nil => exact absurd rfl h1
  | cons x xs => simp

theorem descTree_wf {M K : Type} (KT : KeyText K) (MT : MsText M)
    (d : Descriptor M K) : wfTree (descTree KT MT d) = true := by
  have hkey : ∀ p, wfTree (.node (KT.print p) []) = true := fun p =>
    wfTree_of_parts _ _ (KT.print_ne p) (KT.print_ident p) (by simp [wfArgs])
  cases d with
  | Bare m => exact MT.wf m
  | Pk p =>
    exact wfTree_of_parts _ _ (by decide) (by decide) (by simp [wfArgs, hkey p])
  | Pkh p =>
    exact wfTree_of_parts _ _ (by decide) (by decide) (by simp [wfArgs, hkey p])
  | Wpkh p =>
    exact wfTree_of_parts _ _ (by decide) (by decide) (by simp [wfArgs, hkey p])
  | ShWpkh p =>
    have hin : wfTree (.node ['w', 'p', 'k', 'h'] [.node (KT.print p) []]) = true :=
      wfTree_of_parts _ _ (by decide) (by decide) (by simp [wfArgs, hkey p])
    exact wfTree_of_parts _ _ (by decide) (by decide) (by simp [wfArgs, hin])
  | Sh m =>
    exact wfTree_of_parts _ _ (by decide) (by decide) (by simp [wfArgs, MT.wf m])
  | Wsh m =>
    exact wfTree_of_parts _ _ (by decide) (by decide) (by simp [wfArgs, MT.wf m])
  | ShWsh m =>
    have hin : wfTree (.node ['w', 's', 'h'] [MT.toTree m]) = true :=
      wfTree_of_parts _ _ (by decide) (by decide) (by simp [wfArgs, MT.wf m])
    exact wfTree_of_parts _ _ (by decide) (by decide) (by simp [wfArgs, hin])

theorem print_eq_printTree {M K : Type} (KT : KeyText K) (MT : MsText M)
    (d : Descriptor M K) :
    Descriptor.print KT MT d = printTree (descTree KT MT d) := by
  cases d with
  | Bare m => rfl
  | Pk p =>
    show _ = printTree (.node ['p', 'k'] [.node (KT.print p) []])
    rw [printTree_node_cons, printArgs_nil, printTree_node_nil]
    simp [Descriptor.print]
  | Pkh p =>
    show _ = printTree (.node ['p', 'k', 'h'] [.node (KT.print p) []])
    rw [printTree_node_cons, printArgs_nil, printTree_node_nil]
    simp [Descriptor.print]
  | Wpkh p =>
    show _ = printTree (.node ['w', 'p', 'k', 'h'] [.node (KT.print p) []])
    rw [printTree_node_cons, printArgs_nil, printTree_node_nil]
    simp [Descriptor.print]
  | ShWpkh p =>
    show _ = printTree (.node ['s', 'h']
      [.node ['w', 'p', 'k', 'h'] [.node (KT.print p) []]])
    rw [printTree_node_cons, printArgs_nil, printTree_node_cons, printArgs_nil,
      printTree_node_nil]
    simp [Descriptor.print]
  | Sh m =>
    show _ = printTree (.node ['s', 'h'] [MT.toTree m])
    rw [printTree_node_cons, printArgs_nil]
    simp [Descriptor.print]
  | Wsh m =>
    show _ = printTree (.node ['w', 's', 'h'] [MT.toTree m])
    rw [printTree_node_cons, printArgs_nil]
    simp [Descriptor.print]
  | ShWsh m =>
    show _ = printTree (.node ['s', 'h'] [.node ['w', 's', 'h'] [MT.toTree m]])
    rw [printTree_node_cons, printArgs_nil, printTree_node_cons, printArgs_nil]
    simp [Descriptor.print]

theorem liftMs_map_ne {M X : Type} (o : Option M) (f : M → X) (b : Nat) :
    (liftMs o).map f ≠ Except.error (.Unprintable b) := by
  cases o <;> simp [liftMs, Except.map]

theorem terminalK_ne {K X : Type} (KT : KeyText K) (f : K → X)
    (t : Expression.Tree) (b : Nat) :
    terminalK KT f t ≠ .error (.Unprintable b) := by
  obtain ⟨n2, a2⟩ := t
  cases a2 with
  | nil => cases h : KT.from_str n2 <;> simp [terminalK, h]
  | cons y ys => simp [terminalK]

theorem tree_from_str_not_unprintable (s : List Char) (b : Nat) :
    Expression.Tree.from_str s ≠ .error (.Unprintable b) := by
  simp only [Expression.Tree.from_str]
  cases h : parseAtom (s.length + 1) s with
  | none => simp
  | some pr =>
    obtain ⟨t, r⟩ := pr
    cases r <;> simp

theorem from_tree_not_unprintable {M K : Type} (KT : KeyText K) (MT : MsText M)
    (t : Expression.Tree) (b : Nat) :
    Descriptor.from_tree (M := M) (K := K) KT MT t ≠ .error (.Unprintable b) := by
  obtain ⟨nm, args⟩ := t
  cases args with
  | nil =>
    simp only [Descriptor.from_tree]
    exact liftMs_map_ne _ _ _
  | cons a as =>
    cases as with
    | cons a2 as2 =>
      simp only [Descriptor.from_tree]
      exact liftMs_map_ne _ _ _
    | nil =>
      simp only [Descriptor.from_tree]
      split_ifs <;> first
        | exact terminalK_ne _ _ _ _
        | exact liftMs_map_ne _ _ _
        | (split <;> first
            | exact terminalK_ne _ _ _ _
            | exact liftMs_map_ne _ _ _
            | (split_ifs <;> first
                | exact terminalK_ne _ _ _ _
                | exact liftMs_map_ne _ _ _))

theorem from_str_unprintable_iff {M K : Type} (KT : KeyText K) (MT : MsText M)
    (s : List Char) (b : Nat) :
    Descriptor.from_str (M := M) (K := K) KT MT s = .error (.Unprintable b) ↔
      findUnprintable s = some b := by
  constructor
  · intro h
    cases hf : findUnprintable s with
    | some bb =>
      simp only [Descriptor.from_str, hf] at h
      have hbb : bb = b := by simpa using h
      exact congrArg some hbb
    | none =>
      exfalso
      simp only [Descriptor.from_str, hf] at h
      cases ht : Expression.Tree.from_str s with
      | error e =>
        rw [ht] at h
        have he : e = .Unprintable b := by simpa using h
        rw [he] at ht
        exact tree_from_str_not_unprintable s b ht
      | ok t =>
        rw [ht] at h
        exact from_tree_not_unprintable KT MT t b h
  · intro h
    simp [Descriptor.from_str, h]

theorem from_tree_descTree {M K : Type} (KT : KeyText K) (MT : MsText M)
    (d : Descriptor M K) :
    Descriptor.from_tree KT MT (descTree KT MT d) = .ok d := by
  cases d with
  | Pk p => simp [descTree, Descriptor.from_tree, terminalK, KT.round p]
  | Pkh p => simp [descTree, Descriptor.from_tree, terminalK, KT.round p]
  | Wpkh p => simp [descTree, Descriptor.from_tree, terminalK, KT.round p]
  | ShWpkh p => simp [descTree, Descriptor.from_tree, terminalK, KT.round p]
  | Wsh m => simp [descTree, Descriptor.from_tree, liftMs, Except.map, MT.round m]
  | ShWsh m => simp [descTree, Descriptor.from_tree, liftMs, Except.map, MT.round m]
  | Sh m =>
    rcases htt : MT.toTree m with ⟨nm, args⟩
    have hnr : nm ∉ [['p', 'k'], ['p', 'k', 'h'], ['w', 'p', 'k', 'h'],
        ['s', 'h'], ['w', 's', 'h']] := by
      have h := MT.notReserved m
      rw [htt] at h
      simpa [treeName] using h
    have hrd : MT.fromTree (.node nm args) = some m := by
      have h := MT.round m
      rwa [htt] at h
    obtain ⟨hn1, hn2, hn3, hn4, hn5⟩ :
        nm ≠ ['p', 'k'] ∧ nm ≠ ['p', 'k', 'h'] ∧ nm ≠ ['w', 'p', 'k', 'h'] ∧
        nm ≠ ['s', 'h'] ∧ nm ≠ ['w', 's', 'h'] := by
      simpa [not_or] using hnr
    simp only [descTree]
    rw [htt]
    cases args with
    | nil => simp [Descriptor.from_tree, liftMs, Except.map, hrd]
    | cons a2 as2 =>
      cases as2 with
      | nil => simp [Descriptor.from_tree, liftMs, Except.map, hrd, hn3, hn5]
      | cons a3 as3 => simp [Descriptor.from_tree, liftMs, Except.map, hrd]
  | Bare m =>
    rcases htt : MT.toTree m with ⟨nm, args⟩
    have hnr : nm ∉ [['p', 'k'], ['p', 'k', 'h'], ['w', 'p', 'k', 'h'],
        ['s', 'h'], ['w', 's', 'h']] := by
      have h := MT.notReserved m
      rw [htt] at h
      simpa [treeName] using h
    have hrd : MT.fromTree (.node nm args) = some m := by
      have h := MT.round m
      rwa [htt] at h
    obtain ⟨hn1, hn2, hn3, hn4, hn5⟩ :
        nm ≠ ['p', 'k'] ∧ nm ≠ ['p', 'k', 'h'] ∧ nm ≠ ['w', 'p', 'k', 'h'] ∧
        nm ≠ ['s', 'h'] ∧ nm ≠ ['w', 's', 'h'] := by
      simpa [not_or] using hnr
    simp only [descTree]
    rw [htt]
    cases args with
    | nil => simp [Descriptor.from_tree, liftMs, Except.map, hrd]
    | cons a2 as2 =>
      cases as2 with
      | nil => simp [Descriptor.from_tree, liftMs, Except.map, hrd, hn1, hn2, hn3, hn4, hn5]
      | cons a3 as3 => simp [Descriptor.from_tree, liftMs, Except.map, hrd]

/-- C7: re-parsing the printed form of a descriptor returns the same
descriptor, `from_str (print d) = Ok d`; in particular `ShWpkh` prints as
`sh(wpkh(..))` and `ShWsh` as `sh(wsh(..))` and both parse back to the
same variants (the statement covers every descriptor, hence every
descriptor obtained by parsing). -/
theorem c7_print_parse_roundtrip {M K : Type} (KT : KeyText K) (MT : MsText M)
    (d : Descriptor M K) :
    Descriptor.from_str KT MT (Descriptor.print KT MT d) = .ok d := by
  rw [print_eq_printTree]
  have hwf := descTree_wf KT MT d
  have hpr : findUnprintable (printTree (descTree KT MT d)) = none :=
    findUnprintable_none _ (printTree_printable _ hwf)
  have hts := tree_from_str_print _ hwf
  simp [Descriptor.from_str, hpr, hts, from_tree_descTree]

/-- C3, counterexample: the byte 31 = 0x1F lies outside the claimed
printable range `[0x20, 0x7F]`, yet `Descriptor::from_str` does not
reject the string containing it as `Unprintable` (the source scan
accepts every byte from 20 = 0x14 up). -/
theorem c3_counterexample :
    exBadChar.toNat < 32 ∧
    Descriptor.from_str (M := Unit) (K := Unit) exKeyText exMsText [exBadChar] ≠
      .error (.Unprintable exBadChar.toNat) := by
  refine ⟨by decide, fun h => ?_⟩
  have hf := (from_str_unprintable_iff exKeyText exMsText
    [exBadChar] exBadChar.toNat).mp h
  exact absurd hf (by decide)

/-- C3, amended: `Descriptor::from_str` rejects with `Unprintable(b)`
exactly the strings containing a byte below 20 = 0x14 or above
127 = 0x7F (the source bound is the decimal literal 20, not 0x20); a
string all of whose bytes lie in `[20, 127]` is never rejected for
printability - any failure is then a parse or interpretation error, never
`Unprintable`. -/
theorem c3_from_str_unprintable {M K : Type} (KT : KeyText K) (MT : MsText M)
    (s : List Char) :
    ((∀ c ∈ s, 20 ≤ c.toNat ∧ c.toNat ≤ 127) →
      ∀ b, Descriptor.from_str (M := M) (K := K) KT MT s ≠
        .error (.Unprintable b)) ∧
    ((∃ c ∈ s, c.toNat < 20 ∨ 127 < c.toNat) →
      ∃ c ∈ s, (c.toNat < 20 ∨ 127 < c.toNat) ∧
        Descriptor.from_str (M := M) (K := K) KT MT s =
          .error (.Unprintable c.toNat)) := by
  constructor
  · intro h b hcontra
    have hf := (from_str_unprintable_iff KT MT s b).mp hcontra
    rw [findUnprintable_none s h] at hf
    exact Option.noConfusion hf
  · intro h
    obtain ⟨c, hc, hcb, hcf⟩ := findUnprintable_first s h
    exact ⟨c, hc, hcb, (from_str_unprintable_iff KT MT s c.toNat).mpr hcf⟩

/-- C3, witness: a string of in-range bytes is not rejected as
`Unprintable`, and a string containing the byte 7 is rejected as
`Unprintable(7)`. -/
theorem c3_witness :
    (Descriptor.from_str (M := Unit) (K := Unit) exKeyText exMsText ['p'] ≠
      .error (.Unprintable 112)) ∧
    (∃ c ∈ [Char.ofNat 7], (c.toNat < 20 ∨ 127 < c.toNat) ∧
      Descriptor.from_str (M := Unit) (K := Unit) exKeyText exMsText
        [Char.ofNat 7] = .error (.Unprintable c.toNat)) := by
  constructor
  · exact (c3_from_str_unprintable exKeyText exMsText ['p']).1 (by decide) 112
  · exact (c3_from_str_unprintable exKeyText exMsText [Char.ofNat 7]).2
      ⟨Char.ofNat 7, by simp, by decide⟩
